import Mathlib

/-!
Shallow embedding of the sticky-resolution store adapters of the
confidence-resolver repository: the in-memory materialization repository,
the two file-backed repositories, and the remote resolver fallback.
JavaScript Map and plain-object state is modelled as an association list in
insertion order; Map.set replaces an existing key in place or appends.
-/

/-- A JavaScript Map from string keys to values of type beta, modelled as its
entry list in insertion order. -/
abbrev JsMap (β : Type) : Type := List (String × β)

/-- Map.get: the value of the first entry with the given key. -/
def JsMap.find {β : Type} : JsMap β → String → Option β
  | [], _ => none
  | (k2, v) :: rest, k => if k2 = k then some v else JsMap.find rest k

/-- Map.set: replace the value of an existing key in place, or append. -/
def JsMap.set {β : Type} : JsMap β → String → β → JsMap β
  | [], k, v => [(k, v)]
  | (k2, v2) :: rest, k, v =>
      if k2 = k then (k, v) :: rest else (k2, v2) :: JsMap.set rest k v

/-- Iterating set over an entry list, as a for-of loop of Map.set calls. -/
def JsMap.setAll {β : Type} (m : JsMap β) (l : List (String × β)) : JsMap β :=
  l.foldl (fun acc p => JsMap.set acc p.1 p.2) m

/-- The Map constructor applied to an entry iterable. -/
def JsMap.ofEntries {β : Type} (l : List (String × β)) : JsMap β :=
  JsMap.setAll [] l

/-- One materialization record: whether the unit has been evaluated for the
materialization, and the decided variant per rule id. -/
structure MaterializationInfo where
  unitInInfo : Bool
  ruleToVariant : JsMap String
deriving DecidableEq, Repr

/-- InMemoryMaterializationRepo state: unit id to materialization id to
record, plus the statistics counters. -/
structure InMemoryRepo where
  storage : JsMap (JsMap MaterializationInfo)
  loadCount : Nat
  storeCount : Nat
  cacheHits : Nat
  cacheMisses : Nat
deriving DecidableEq, Repr

/-- A freshly constructed InMemoryMaterializationRepo. -/
def InMemoryRepo.empty : InMemoryRepo := ⟨[], 0, 0, 0, 0⟩

/-- createEmptyMap: a map with a single default, empty MaterializationInfo
under the given key. -/
def createEmptyMap (key : String) : JsMap MaterializationInfo :=
  [(key, ⟨false, []⟩)]

/-- InMemoryMaterializationRepo.loadMaterializedAssignmentsForUnit: on a hit
returns a fresh map holding only the requested materialization, otherwise the
default singleton map. Returns the result together with the updated state. -/
def InMemoryRepo.loadMaterializedAssignmentsForUnit (repo : InMemoryRepo)
    (unit mat : String) : JsMap MaterializationInfo × InMemoryRepo :=
  let repo1 := { repo with loadCount := repo.loadCount + 1 }
  match JsMap.find repo1.storage unit with
  | some unitAssignments =>
      match JsMap.find unitAssignments mat with
      | some info =>
          ([(mat, info)], { repo1 with cacheHits := repo1.cacheHits + 1 })
      | none =>
          (createEmptyMap mat, { repo1 with cacheMisses := repo1.cacheMisses + 1 })
  | none =>
      (createEmptyMap mat, { repo1 with cacheMisses := repo1.cacheMisses + 1 })

/-- InMemoryMaterializationRepo.storeAssignment: a no-op for the empty unit;
otherwise copies the new assignments into a fresh map when the unit is new, or
sets each new assignment over a copy of the existing entry. -/
def InMemoryRepo.storeAssignment (repo : InMemoryRepo) (unit : String)
    (assignments : JsMap MaterializationInfo) : InMemoryRepo :=
  let repo1 := { repo with storeCount := repo.storeCount + 1 }
  if unit = "" then repo1
  else
    match JsMap.find repo1.storage unit with
    | none =>
        let newEntry := JsMap.ofEntries assignments
        { repo1 with storage := JsMap.set repo1.storage unit newEntry }
    | some existingEntry =>
        let newEntry := JsMap.setAll (JsMap.ofEntries existingEntry) assignments
        { repo1 with storage := JsMap.set repo1.storage unit newEntry }

/-- InMemoryMaterializationRepo.close: clears the storage map. -/
def InMemoryRepo.close (repo : InMemoryRepo) : InMemoryRepo :=
  { repo with storage := [] }

/-- InMemoryMaterializationRepo.exportData: the stored data as a plain object,
entry for entry. -/
def InMemoryRepo.exportData (repo : InMemoryRepo) :
    JsMap (JsMap MaterializationInfo) :=
  repo.storage

/-- State of the one-file FileBackedMaterializationRepo variant that reads and
writes the JSON file on every operation: the parsed file contents (an
unreadable or absent file parses as the empty object) and the counters. -/
structure FileRepo where
  file : JsMap (JsMap MaterializationInfo)
  loadCount : Nat
  storeCount : Nat
  cacheHits : Nat
  cacheMisses : Nat
deriving DecidableEq, Repr

/-- A FileBackedMaterializationRepo over a file that reads as empty. -/
def FileRepo.empty : FileRepo := ⟨[], 0, 0, 0, 0⟩

/-- FileBackedMaterializationRepo.loadMaterializedAssignmentsForUnit of the
read-on-every-call variant: reads all data, returns only the requested
materialization on a hit, otherwise the default singleton map. -/
def FileRepo.loadMaterializedAssignmentsForUnit (repo : FileRepo)
    (unit mat : String) : JsMap MaterializationInfo × FileRepo :=
  let repo1 := { repo with loadCount := repo.loadCount + 1 }
  match JsMap.find repo1.file unit with
  | some unitData =>
      match JsMap.find unitData mat with
      | some info =>
          ([(mat, info)], { repo1 with cacheHits := repo1.cacheHits + 1 })
      | none =>
          (createEmptyMap mat, { repo1 with cacheMisses := repo1.cacheMisses + 1 })
  | none =>
      (createEmptyMap mat, { repo1 with cacheMisses := repo1.cacheMisses + 1 })

/-- FileBackedMaterializationRepo.storeAssignment of the read-on-every-call
variant: a no-op for the empty unit; otherwise ensures the unit object exists,
assigns each new entry over it, and writes the file back. -/
def FileRepo.storeAssignment (repo : FileRepo) (unit : String)
    (assignments : JsMap MaterializationInfo) : FileRepo :=
  let repo1 := { repo with storeCount := repo.storeCount + 1 }
  if unit = "" then repo1
  else
    let existing := (JsMap.find repo1.file unit).getD []
    let newEntry := JsMap.setAll existing assignments
    { repo1 with file := JsMap.set repo1.file unit newEntry }

/-- FileBackedMaterializationRepo.close of the read-on-every-call variant: a
no-op, the cleanup of the cache file is commented out in the source. -/
def FileRepo.close (repo : FileRepo) : FileRepo := repo

/-- The backing file of the write-through FileBackedMaterializationRepo:
none models an absent or unparseable file, some holds the parsed object. -/
structure FileSystem where
  contents : Option (JsMap (JsMap MaterializationInfo))
deriving DecidableEq, Repr

/-- State of the write-through FileBackedMaterializationRepo: it wraps an
InMemoryMaterializationRepo and touches the file only on initialization and
close. -/
structure FileBackedRepo where
  memoryRepo : InMemoryRepo
deriving DecidableEq, Repr

/-- A freshly constructed write-through FileBackedMaterializationRepo. -/
def FileBackedRepo.new : FileBackedRepo := ⟨InMemoryRepo.empty⟩

/-- FileBackedMaterializationRepo.initialize of the write-through variant:
reads the file and replays every unit object into the in-memory repository
through storeAssignment; an absent or unparseable file leaves the state
empty. -/
def FileBackedRepo.initRepo (fb : FileBackedRepo) (fsys : FileSystem) :
    FileBackedRepo :=
  match fsys.contents with
  | none => fb
  | some allData =>
      ⟨allData.foldl
        (fun r p => r.storeAssignment p.1 (JsMap.ofEntries p.2))
        fb.memoryRepo⟩

/-- FileBackedMaterializationRepo.loadMaterializedAssignmentsForUnit of the
write-through variant: delegates to the in-memory repository. -/
def FileBackedRepo.loadMaterializedAssignmentsForUnit (fb : FileBackedRepo)
    (unit mat : String) : JsMap MaterializationInfo × FileBackedRepo :=
  let r := fb.memoryRepo.loadMaterializedAssignmentsForUnit unit mat
  (r.1, ⟨r.2⟩)

/-- FileBackedMaterializationRepo.storeAssignment of the write-through
variant: delegates to the in-memory repository. -/
def FileBackedRepo.storeAssignment (fb : FileBackedRepo) (unit : String)
    (assignments : JsMap MaterializationInfo) : FileBackedRepo :=
  ⟨fb.memoryRepo.storeAssignment unit assignments⟩

/-- FileBackedMaterializationRepo.close of the write-through variant: exports
the in-memory data, overwrites the file with its serialization, then closes
the in-memory repository. -/
def FileBackedRepo.close (fb : FileBackedRepo) (_fsys : FileSystem) :
    FileBackedRepo × FileSystem :=
  let allData := fb.memoryRepo.exportData
  (⟨fb.memoryRepo.close⟩, ⟨some allData⟩)

/-- One resolved flag of a ResolveFlagsResponse, as used on this path. -/
structure ResolvedFlag where
  flag : String
  variant : String
  reason : String
deriving DecidableEq, Repr

/-- The decoded body of a successful remote resolve call: the resolved flag
decisions, the opaque continuation token and the resolution id. -/
structure ResolveFlagsResponse where
  resolvedFlags : List ResolvedFlag
  resolveToken : List Nat
  resolveId : String
deriving DecidableEq, Repr

/-- Outcome of the fetch call made by RemoteResolverFallback.resolve: either
the fetch promise rejected with an error message, or an HTTP response arrived
whose JSON body decodes to a ResolveFlagsResponse. -/
structure HttpResponse where
  ok : Bool
  status : Nat
  statusText : String
  body : ResolveFlagsResponse
deriving DecidableEq, Repr

/-- The result of awaiting the fetch promise. -/
abbrev FetchResult : Type := Except String HttpResponse

/-- RemoteResolverFallback state: only the immutable configuration. -/
structure RemoteResolverFallback where
  baseUrl : String
deriving DecidableEq, Repr

/-- RemoteResolverFallback.resolve: a rejected fetch propagates; a response
with a non-success status throws for the whole request; a success status
returns the decoded body verbatim. -/
def RemoteResolverFallback.resolve (fetched : FetchResult) :
    Except String ResolveFlagsResponse :=
  match fetched with
  | Except.error e => Except.error e
  | Except.ok resp =>
      if resp.ok then Except.ok resp.body
      else
        Except.error
          ("Remote resolve failed: " ++ toString resp.status ++ " "
            ++ resp.statusText)

/-- RemoteResolverFallback.close: no resources to clean up. -/
def RemoteResolverFallback.close (r : RemoteResolverFallback) :
    RemoteResolverFallback := r

/-- One operation of a storeAssignment and
loadMaterializedAssignmentsForUnit call sequence against the in-memory
repository. -/
inductive RepoOp where
  | store (unit : String) (assignments : JsMap MaterializationInfo)
  | load (unit mat : String)
deriving Repr

/-- Apply one operation to the repository state. -/
def applyOp (repo : InMemoryRepo) : RepoOp → InMemoryRepo
  | RepoOp.store u a => repo.storeAssignment u a
  | RepoOp.load u m => (repo.loadMaterializedAssignmentsForUnit u m).2

/-- Run a sequence of operations from a repository state. -/
def runOps (repo : InMemoryRepo) (ops : List RepoOp) : InMemoryRepo :=
  ops.foldl applyOp repo

/-- The variant a loadMaterializedAssignmentsForUnit call reports for the
given rule id inside the record it returns for the requested
materialization. -/
def loadVariant (repo : InMemoryRepo) (unit mat rule : String) :
    Option String :=
  match JsMap.find (repo.loadMaterializedAssignmentsForUnit unit mat).1 mat with
  | none => none
  | some info => JsMap.find info.ruleToVariant rule

/-- The variant stored for the given unit, materialization id and rule id. -/
def storedVariant (repo : InMemoryRepo) (unit mat rule : String) :
    Option String :=
  (JsMap.find repo.storage unit).bind fun ua =>
    (JsMap.find ua mat).bind fun info => JsMap.find info.ruleToVariant rule

/-- Every materialization map stored under a unit has distinct keys; true of
every reachable state because the stored maps are JavaScript Map values. -/
def WFStorage (s : JsMap (JsMap MaterializationInfo)) : Prop :=
  ∀ p ∈ s, ((p.2.map Prod.fst).Nodup)

/-- An operation preserves the assignment of variant V to (U, M, R) when it
is a load, a store for another unit, or a store for U whose assignments map
M, wherever they contain it, to a record deciding V for R. -/
def opPreserves (U M R V : String) : RepoOp → Prop
  | RepoOp.store u a =>
      u ≠ U ∨ ∀ p ∈ a, p.1 = M → JsMap.find p.2.ruleToVariant R = some V
  | RepoOp.load _ _ => True

instance (U M R V : String) (op : RepoOp) :
    Decidable (opPreserves U M R V op) := by
  cases op <;> simp only [opPreserves] <;> infer_instance

/-- The unit entry storeAssignment writes: a copy of the new assignments for
a new unit, or the new assignments set over a copy of the existing entry. -/
def storeEntry (r : InMemoryRepo) (unit : String)
    (a : JsMap MaterializationInfo) : JsMap MaterializationInfo :=
  match JsMap.find r.storage unit with
  | none => JsMap.ofEntries a
  | some existingEntry => JsMap.setAll (JsMap.ofEntries existingEntry) a

/-- The record stored for a unit and materialization id in a two-level map. -/
def findRecord (s : JsMap (JsMap MaterializationInfo)) (u m : String) :
    Option MaterializationInfo :=
  (JsMap.find s u).bind fun ua => JsMap.find ua m

theorem JsMap.find_set_self {β : Type} (m : JsMap β) (k : String) (v : β) :
    JsMap.find (JsMap.set m k v) k = some v := by
  induction m with
  | nil => simp [JsMap.set, JsMap.find]
  | cons p rest ih =>
      obtain ⟨k2, v2⟩ := p
      by_cases h : k2 = k
      · simp [JsMap.set, JsMap.find, h]
      · simp [JsMap.set, JsMap.find, h, ih]

theorem JsMap.find_set_ne {β : Type} (m : JsMap β) {k k2 : String} (v : β)
    (h : k2 ≠ k) : JsMap.find (JsMap.set m k v) k2 = JsMap.find m k2 := by
  induction m with
  | nil => simp [JsMap.set, JsMap.find, Ne.symm h]
  | cons p rest ih =>
      obtain ⟨k3, v3⟩ := p
      by_cases hp : k3 = k
      · subst hp
        simp [JsMap.set, JsMap.find, Ne.symm h]
      · simp [JsMap.set, JsMap.find, hp, ih]

theorem JsMap.mem_of_find_eq_some {β : Type} {m : JsMap β} {k : String}
    {v : β} (h : JsMap.find m k = some v) : (k, v) ∈ m := by
  induction m with
  | nil => simp [JsMap.find] at h
  | cons p rest ih =>
      obtain ⟨k2, v2⟩ := p
      by_cases hp : k2 = k
      · subst hp
        simp [JsMap.find] at h
        subst h
        exact List.mem_cons_self _ _
      · simp [JsMap.find, hp] at h
        exact List.mem_cons_of_mem _ (ih h)

theorem JsMap.find_eq_none_of_not_mem {β : Type} {m : JsMap β} {k : String}
    (h : k ∉ m.map Prod.fst) : JsMap.find m k = none := by
  induction m with
  | nil => simp [JsMap.find]
  | cons p rest ih =>
      obtain ⟨k2, v2⟩ := p
      simp only [List.map_cons, List.mem_cons] at h
      push_neg at h
      simp [JsMap.find, Ne.symm h.1, ih h.2]

theorem JsMap.mem_keys_of_find_eq_some {β : Type} {m : JsMap β} {k : String}
    {v : β} (h : JsMap.find m k = some v) : k ∈ m.map Prod.fst :=
  List.mem_map.mpr ⟨(k, v), JsMap.mem_of_find_eq_some h, rfl⟩

theorem JsMap.find_of_nodup_mem {β : Type} {m : JsMap β} {k : String} {v : β}
    (hnd : (m.map Prod.fst).Nodup) (h : (k, v) ∈ m) :
    JsMap.find m k = some v := by
  induction m with
  | nil => simp at h
  | cons p rest ih =>
      obtain ⟨k2, v2⟩ := p
      simp only [List.map_cons, List.nodup_cons] at hnd
      rcases List.mem_cons.mp h with h1 | h2
      · obtain ⟨e1, e2⟩ := Prod.mk.injEq .. ▸ h1
        subst e1; subst e2
        simp [JsMap.find]
      · have hk : k ∈ rest.map Prod.fst :=
          List.mem_map.mpr ⟨(k, v), h2, rfl⟩
        have hp : k2 ≠ k := fun e => hnd.1 (e ▸ hk)
        simp [JsMap.find, hp, ih hnd.2 h2]

theorem JsMap.keys_set_of_mem {β : Type} {m : JsMap β} {k : String} (v : β)
    (h : k ∈ m.map Prod.fst) :
    (JsMap.set m k v).map Prod.fst = m.map Prod.fst := by
  induction m with
  | nil => simp at h
  | cons p rest ih =>
      obtain ⟨k2, v2⟩ := p
      by_cases hp : k2 = k
      · subst hp
        simp [JsMap.set]
      · simp only [List.map_cons, List.mem_cons] at h
        rcases h with h1 | h2
        · exact absurd h1.symm hp
        · simp [JsMap.set, hp, ih h2]

theorem JsMap.keys_set_of_not_mem {β : Type} {m : JsMap β} {k : String}
    (v : β) (h : k ∉ m.map Prod.fst) :
    (JsMap.set m k v).map Prod.fst = m.map Prod.fst ++ [k] := by
  induction m with
  | nil => simp [JsMap.set]
  | cons p rest ih =>
      obtain ⟨k2, v2⟩ := p
      simp only [List.map_cons, List.mem_cons] at h
      push_neg at h
      simp [JsMap.set, Ne.symm h.1, ih h.2]

theorem JsMap.nodup_keys_set {β : Type} {m : JsMap β} (k : String) (v : β)
    (hnd : (m.map Prod.fst).Nodup) :
    ((JsMap.set m k v).map Prod.fst).Nodup := by
  by_cases h : k ∈ m.map Prod.fst
  · rw [JsMap.keys_set_of_mem v h]; exact hnd
  · rw [JsMap.keys_set_of_not_mem v h]
    rw [List.nodup_append]
    refine ⟨hnd, List.nodup_singleton k, ?_⟩
    intro a ha hb
    simp only [List.mem_singleton] at hb
    exact h (hb ▸ ha)

theorem JsMap.setAll_nil {β : Type} (m : JsMap β) : JsMap.setAll m [] = m :=
  rfl

theorem JsMap.setAll_cons {β : Type} (m : JsMap β) (p : String × β)
    (l : List (String × β)) :
    JsMap.setAll m (p :: l) = JsMap.setAll (JsMap.set m p.1 p.2) l := rfl

theorem JsMap.find_setAll_of_not_mem {β : Type} {l : List (String × β)}
    (m : JsMap β) {k : String} (h : k ∉ l.map Prod.fst) :
    JsMap.find (JsMap.setAll m l) k = JsMap.find m k := by
  induction l generalizing m with
  | nil => rfl
  | cons p rest ih =>
      simp only [List.map_cons, List.mem_cons] at h
      push_neg at h
      rw [JsMap.setAll_cons, ih _ h.2, JsMap.find_set_ne _ _ h.1]

theorem JsMap.find_setAll_of_nodup_mem {β : Type} {l : List (String × β)}
    (m : JsMap β) {k : String} {v : β} (hnd : (l.map Prod.fst).Nodup)
    (h : (k, v) ∈ l) : JsMap.find (JsMap.setAll m l) k = some v := by
  induction l generalizing m with
  | nil => simp at h
  | cons p rest ih =>
      obtain ⟨k2, v2⟩ := p
      simp only [List.map_cons, List.nodup_cons] at hnd
      rcases List.mem_cons.mp h with h1 | h2
      · obtain ⟨e1, e2⟩ := Prod.mk.injEq .. ▸ h1
        subst e1; subst e2
        rw [JsMap.setAll_cons]
        rw [JsMap.find_setAll_of_not_mem _ hnd.1]
        exact JsMap.find_set_self m k v
      · rw [JsMap.setAll_cons]
        exact ih _ hnd.2 h2

theorem JsMap.find_setAll_mem {β : Type} {l : List (String × β)}
    (m : JsMap β) {k : String} (h : k ∈ l.map Prod.fst) :
    ∃ v, (k, v) ∈ l ∧ JsMap.find (JsMap.setAll m l) k = some v := by
  induction l generalizing m with
  | nil => simp at h
  | cons p rest ih =>
      obtain ⟨k2, v2⟩ := p
      by_cases hr : k ∈ rest.map Prod.fst
      · rcases ih (JsMap.set m k2 v2) hr with ⟨v, hv1, hv2⟩
        refine ⟨v, List.mem_cons_of_mem _ hv1, ?_⟩
        rw [JsMap.setAll_cons]
        exact hv2
      · simp only [List.map_cons, List.mem_cons] at h
        rcases h with h1 | h2
        · subst h1
          refine ⟨v2, List.mem_cons_self _ _, ?_⟩
          rw [JsMap.setAll_cons, JsMap.find_setAll_of_not_mem _ hr]
          exact JsMap.find_set_self m k v2
        · exact absurd h2 hr

theorem JsMap.nodup_keys_setAll {β : Type} {m : JsMap β}
    (l : List (String × β)) (hnd : (m.map Prod.fst).Nodup) :
    ((JsMap.setAll m l).map Prod.fst).Nodup := by
  induction l generalizing m with
  | nil => exact hnd
  | cons p rest ih =>
      rw [JsMap.setAll_cons]
      exact ih (JsMap.nodup_keys_set p.1 p.2 hnd)

theorem JsMap.nodup_keys_ofEntries {β : Type} (l : List (String × β)) :
    ((JsMap.ofEntries l).map Prod.fst).Nodup :=
  JsMap.nodup_keys_setAll l List.nodup_nil

theorem JsMap.find_ofEntries_of_nodup {β : Type} {l : List (String × β)}
    (hnd : (l.map Prod.fst).Nodup) (k : String) :
    JsMap.find (JsMap.ofEntries l) k = JsMap.find l k := by
  rw [JsMap.ofEntries]
  by_cases h : k ∈ l.map Prod.fst
  · rcases List.mem_map.mp h with ⟨p, hp, hpk⟩
    obtain ⟨k2, v2⟩ := p
    simp only at hpk
    subst hpk
    rw [JsMap.find_setAll_of_nodup_mem _ hnd hp,
      JsMap.find_of_nodup_mem hnd hp]
  · rw [JsMap.find_setAll_of_not_mem _ h, JsMap.find_eq_none_of_not_mem h]
    rfl

theorem JsMap.setAll_front {β : Type} {l : List (String × β)} (m : JsMap β)
    {k : String} (v : β) (h : k ∉ l.map Prod.fst) :
    JsMap.setAll ((k, v) :: m) l = (k, v) :: JsMap.setAll m l := by
  induction l generalizing m with
  | nil => rfl
  | cons p rest ih =>
      obtain ⟨k2, v2⟩ := p
      simp only [List.map_cons, List.mem_cons] at h
      push_neg at h
      rw [JsMap.setAll_cons, JsMap.setAll_cons]
      have hset : JsMap.set ((k, v) :: m) k2 v2 = (k, v) :: JsMap.set m k2 v2 := by
        simp [JsMap.set, h.1]
      rw [hset, ih _ h.2]

theorem JsMap.ofEntries_eq_self {β : Type} {l : List (String × β)}
    (hnd : (l.map Prod.fst).Nodup) : JsMap.ofEntries l = l := by
  induction l with
  | nil => rfl
  | cons p rest ih =>
      obtain ⟨k2, v2⟩ := p
      simp only [List.map_cons, List.nodup_cons] at hnd
      rw [JsMap.ofEntries, JsMap.setAll_cons]
      have hset : JsMap.set ([] : JsMap β) k2 v2 = [(k2, v2)] := rfl
      rw [hset, JsMap.setAll_front _ _ hnd.1, ← JsMap.ofEntries, ih hnd.2]

theorem JsMap.mem_set {β : Type} {m : JsMap β} {k : String} {v : β}
    {p : String × β} (h : p ∈ JsMap.set m k v) : p ∈ m ∨ p = (k, v) := by
  induction m with
  | nil =>
      simp only [JsMap.set, List.mem_singleton] at h
      exact Or.inr h
  | cons q rest ih =>
      obtain ⟨k2, v2⟩ := q
      by_cases hq : k2 = k
      · simp only [JsMap.set, hq, if_true, List.mem_cons] at h
        rcases h with h1 | h2
        · exact Or.inr h1
        · exact Or.inl (List.mem_cons_of_mem _ h2)
      · simp only [JsMap.set, hq, if_false, List.mem_cons] at h
        rcases h with h1 | h2
        · exact Or.inl (h1 ▸ List.mem_cons_self _ _)
        · rcases ih h2 with h3 | h4
          · exact Or.inl (List.mem_cons_of_mem _ h3)
          · exact Or.inr h4

theorem storeAssignment_storage (r : InMemoryRepo) (unit : String)
    (a : JsMap MaterializationInfo) (h : unit ≠ "") :
    (r.storeAssignment unit a).storage
      = JsMap.set r.storage unit (storeEntry r unit a) := by
  simp only [InMemoryRepo.storeAssignment, storeEntry, h, if_false]
  cases hf : JsMap.find r.storage unit <;> simp [hf]

theorem storeAssignment_empty_unit (r : InMemoryRepo)
    (a : JsMap MaterializationInfo) :
    (r.storeAssignment "" a).storage = r.storage := by
  simp [InMemoryRepo.storeAssignment]

theorem find_store_self (r : InMemoryRepo) (unit : String)
    (a : JsMap MaterializationInfo) (h : unit ≠ "") :
    JsMap.find (r.storeAssignment unit a).storage unit
      = some (storeEntry r unit a) := by
  rw [storeAssignment_storage r unit a h, JsMap.find_set_self]

theorem find_store_ne (r : InMemoryRepo) (unit u2 : String)
    (a : JsMap MaterializationInfo) (h2 : u2 ≠ unit) :
    JsMap.find (r.storeAssignment unit a).storage u2
      = JsMap.find r.storage u2 := by
  by_cases h : unit = ""
  · subst h; rw [storeAssignment_empty_unit]
  · rw [storeAssignment_storage r unit a h, JsMap.find_set_ne _ _ h2]

theorem load_storage (r : InMemoryRepo) (u m : String) :
    ((r.loadMaterializedAssignmentsForUnit u m).2).storage = r.storage := by
  simp only [InMemoryRepo.loadMaterializedAssignmentsForUnit]
  cases hf : JsMap.find r.storage u with
  | none => simp [hf]
  | some ua => cases hg : JsMap.find ua m <;> simp [hf, hg]

theorem load_fst (r : InMemoryRepo) (u m : String) :
    (r.loadMaterializedAssignmentsForUnit u m).1
      = [(m, (findRecord r.storage u m).getD ⟨false, []⟩)] := by
  simp only [InMemoryRepo.loadMaterializedAssignmentsForUnit, findRecord]
  cases hf : JsMap.find r.storage u with
  | none => simp [createEmptyMap]
  | some ua =>
      cases hg : JsMap.find ua m with
      | none => simp [hg, createEmptyMap]
      | some info => simp [hg]

theorem fileLoad_fst (f : FileRepo) (u m : String) :
    (f.loadMaterializedAssignmentsForUnit u m).1
      = [(m, (findRecord f.file u m).getD ⟨false, []⟩)] := by
  simp only [FileRepo.loadMaterializedAssignmentsForUnit, findRecord]
  cases hf : JsMap.find f.file u with
  | none => simp [createEmptyMap]
  | some ua =>
      cases hg : JsMap.find ua m with
      | none => simp [hg, createEmptyMap]
      | some info => simp [hg]

theorem fileStore_file (f : FileRepo) (unit : String)
    (a : JsMap MaterializationInfo) (h : unit ≠ "") :
    (f.storeAssignment unit a).file
      = JsMap.set f.file unit
          (JsMap.setAll ((JsMap.find f.file unit).getD []) a) := by
  simp [FileRepo.storeAssignment, h]

theorem fileStore_empty_unit (f : FileRepo) (a : JsMap MaterializationInfo) :
    (f.storeAssignment "" a).file = f.file := by
  simp [FileRepo.storeAssignment]

theorem loadVariant_eq_storedVariant (r : InMemoryRepo) (u m rule : String) :
    loadVariant r u m rule = storedVariant r u m rule := by
  rw [loadVariant, load_fst, storedVariant]
  cases hf : JsMap.find r.storage u with
  | none => simp [findRecord, hf, JsMap.find]
  | some ua =>
      cases hg : JsMap.find ua m with
      | none => simp [findRecord, hf, hg, JsMap.find]
      | some info => simp [findRecord, hf, hg, JsMap.find]

theorem WFStorage_store (r : InMemoryRepo) (unit : String)
    (a : JsMap MaterializationInfo) (h : WFStorage r.storage) :
    WFStorage (r.storeAssignment unit a).storage := by
  by_cases hu : unit = ""
  · subst hu; rw [storeAssignment_empty_unit]; exact h
  · rw [storeAssignment_storage r unit a hu]
    intro p hp
    rcases JsMap.mem_set hp with h1 | h2
    · exact h p h1
    · subst h2
      simp only
      rw [storeEntry]
      cases hf : JsMap.find r.storage unit with
      | none => exact JsMap.nodup_keys_ofEntries a
      | some e => exact JsMap.nodup_keys_setAll a (JsMap.nodup_keys_ofEntries e)

theorem WFStorage_load (r : InMemoryRepo) (u m : String)
    (h : WFStorage r.storage) :
    WFStorage ((r.loadMaterializedAssignmentsForUnit u m).2).storage := by
  rw [load_storage]; exact h

theorem storedVariant_after_store (r : InMemoryRepo)
    (a : JsMap MaterializationInfo) {U M R V : String}
    {info0 : MaterializationInfo} (hU : U ≠ "")
    (hnd : (a.map Prod.fst).Nodup) (hM : JsMap.find a M = some info0)
    (hR : JsMap.find info0.ruleToVariant R = some V) :
    storedVariant (r.storeAssignment U a) U M R = some V := by
  rw [storedVariant, find_store_self r U a hU]
  simp only [Option.some_bind]
  rw [storeEntry]
  cases hf : JsMap.find r.storage U with
  | none =>
      rw [JsMap.find_ofEntries_of_nodup hnd, hM]
      simpa using hR
  | some e =>
      have hmem : (M, info0) ∈ a := JsMap.mem_of_find_eq_some hM
      rw [JsMap.find_setAll_of_nodup_mem _ hnd hmem]
      simpa using hR

theorem sticky_step (r : InMemoryRepo) (op : RepoOp) {U M R V : String}
    (hWF : WFStorage r.storage) (hs : storedVariant r U M R = some V)
    (hop : opPreserves U M R V op) :
    WFStorage (applyOp r op).storage
      ∧ storedVariant (applyOp r op) U M R = some V := by
  cases op with
  | load u m =>
      refine ⟨WFStorage_load r u m hWF, ?_⟩
      rw [applyOp, storedVariant, load_storage]
      exact hs
  | store u a =>
      refine ⟨WFStorage_store r u a hWF, ?_⟩
      rw [applyOp]
      by_cases hu : u = ""
      · subst hu
        rw [storedVariant, storeAssignment_empty_unit]
        exact hs
      · rcases hop with hne | hmaps
        · rw [storedVariant, find_store_ne r u U a (Ne.symm hne)]
          exact hs
        · rw [storedVariant] at hs
          cases hf : JsMap.find r.storage U with
          | none => rw [hf] at hs; simp at hs
          | some ua =>
              rw [hf] at hs
              simp only [Option.some_bind] at hs
              cases hg : JsMap.find ua M with
              | none => rw [hg] at hs; simp at hs
              | some info =>
                  rw [hg] at hs
                  simp only [Option.some_bind] at hs
                  by_cases huU : u = U
                  · subst huU
                    rw [storedVariant, find_store_self r u a hu]
                    simp only [Option.some_bind]
                    rw [storeEntry, hf]
                    by_cases hMk : M ∈ a.map Prod.fst
                    · rcases JsMap.find_setAll_mem
                        (JsMap.ofEntries ua) hMk with ⟨v, hv1, hv2⟩
                      rw [hv2]
                      simpa using hmaps (M, v) hv1 rfl
                    · rw [JsMap.find_setAll_of_not_mem _ hMk]
                      have hua : (ua.map Prod.fst).Nodup :=
                        hWF (u, ua) (JsMap.mem_of_find_eq_some hf)
                      rw [JsMap.find_ofEntries_of_nodup hua, hg]
                      simpa using hs
                  · rw [storedVariant, find_store_ne r u U a (Ne.symm huU),
                      hf]
                    simp only [Option.some_bind]
                    rw [hg]
                    simpa using hs

theorem sticky_runOps (r : InMemoryRepo) (ops : List RepoOp)
    {U M R V : String} (hWF : WFStorage r.storage)
    (hs : storedVariant r U M R = some V)
    (hops : ∀ op ∈ ops, opPreserves U M R V op) :
    storedVariant (runOps r ops) U M R = some V := by
  induction ops generalizing r with
  | nil => exact hs
  | cons op rest ih =>
      have hstep := sticky_step r op hWF hs (hops op (List.mem_cons_self _ _))
      have hrest : ∀ o ∈ rest, opPreserves U M R V o :=
        fun o ho => hops o (List.mem_cons_of_mem _ ho)
      exact ih (applyOp r op) hstep.1 hstep.2 hrest

/-- Claim C1, counterexample: storeAssignment persists variant a for unit u,
materialization m and rule r, but after an intervening storeAssignment for
the same unit and materialization the load reports variant b for rule r, not
a, so the stated invariant fails under arbitrary intervening operations. -/
theorem C1_counterexample :
    storedVariant (InMemoryRepo.empty.storeAssignment "u"
        [("m", ⟨true, [("r", "a")]⟩)]) "u" "m" "r" = some "a" ∧
    loadVariant ((InMemoryRepo.empty.storeAssignment "u"
        [("m", ⟨true, [("r", "a")]⟩)]).storeAssignment "u"
        [("m", ⟨true, [("r", "b")]⟩)]) "u" "m" "r" ≠ some "a" ∧
    loadVariant ((InMemoryRepo.empty.storeAssignment "u"
        [("m", ⟨true, [("r", "a")]⟩)]).storeAssignment "u"
        [("m", ⟨true, [("r", "b")]⟩)]) "u" "m" "r" = some "b" := by
  decide

/-- Claim C1, amended: once a storeAssignment call with a nonempty unit
persists variant V for (U, M, R), every later
loadMaterializedAssignmentsForUnit for (U, M) returns a record mapping R to
V, provided every intervening storeAssignment for unit U maps M, wherever
its assignments contain it, to a record still deciding V for R; a store that
rebinds M for U overwrites the record wholesale, which is what the
counterexample exhibits. -/
theorem C1_sticky_amended (r0 : InMemoryRepo)
    (a0 : JsMap MaterializationInfo) (U M R V : String)
    (info0 : MaterializationInfo) (ops : List RepoOp)
    (hWF : WFStorage r0.storage) (hU : U ≠ "")
    (hnd : (a0.map Prod.fst).Nodup)
    (hM : JsMap.find a0 M = some info0)
    (hR : JsMap.find info0.ruleToVariant R = some V)
    (hops : ∀ op ∈ ops, opPreserves U M R V op) :
    loadVariant (runOps (r0.storeAssignment U a0) ops) U M R = some V := by
  rw [loadVariant_eq_storedVariant]
  exact sticky_runOps _ ops (WFStorage_store r0 U a0 hWF)
    (storedVariant_after_store r0 a0 hU hnd hM hR) hops

/-- Witness for the amended claim C1 at a concrete input: a store for another
unit and a load intervene, and the load still reports variant a. -/
theorem C1_sticky_amended_witness :
    loadVariant (runOps (InMemoryRepo.empty.storeAssignment "u"
        [("m", ⟨true, [("r", "a")]⟩)])
        [RepoOp.store "u2" [("m", ⟨true, [("r", "b")]⟩)],
          RepoOp.load "u" "m"]) "u" "m" "r" = some "a" :=
  C1_sticky_amended InMemoryRepo.empty [("m", ⟨true, [("r", "a")]⟩)]
    "u" "m" "r" "a" ⟨true, [("r", "a")]⟩
    [RepoOp.store "u2" [("m", ⟨true, [("r", "b")]⟩)], RepoOp.load "u" "m"]
    (by intro p hp; exact absurd hp (List.not_mem_nil p)) (by decide)
    (by decide) (by decide) (by decide) (by decide)

/-- Claim C2, counterexample: with the record for m1 holding r1 to a stored
for unit u, a storeAssignment of a record for m1 holding r2 to b followed by
a load of (u, m1) returns only the new record; the entry r1 to a is gone, so
the result is the overwrite, not the union the claim states. -/
theorem C2_counterexample :
    (((InMemoryRepo.empty.storeAssignment "u"
        [("m1", ⟨true, [("r1", "a")]⟩)]).storeAssignment "u"
        [("m1", ⟨true, [("r2", "b")]⟩)]).loadMaterializedAssignmentsForUnit
        "u" "m1").1
      = [("m1", ⟨true, [("r2", "b")]⟩)] ∧
    loadVariant ((InMemoryRepo.empty.storeAssignment "u"
        [("m1", ⟨true, [("r1", "a")]⟩)]).storeAssignment "u"
        [("m1", ⟨true, [("r2", "b")]⟩)]) "u" "m1" "r1" = none := by
  decide

/-- Claim C2, amended: storeAssignment replaces the stored record of each
materialization id present in the new assignments wholesale, so after a save
of a record n under m1 the load of (u, m1) returns exactly that record,
whatever rule entries were stored before; the union appears only when the
caller has already folded the prior entries into the saved records. -/
theorem C2_save_replaces_record (r : InMemoryRepo) (u m1 : String)
    (n : MaterializationInfo) (hu : u ≠ "") :
    ((r.storeAssignment u [(m1, n)]).loadMaterializedAssignmentsForUnit
        u m1).1 = [(m1, n)] := by
  rw [load_fst]
  have h : findRecord (r.storeAssignment u [(m1, n)]).storage u m1
      = some n := by
    rw [findRecord, find_store_self r u _ hu]
    simp only [Option.some_bind]
    rw [storeEntry]
    cases hf : JsMap.find r.storage u with
    | none =>
        have he : JsMap.ofEntries [(m1, n)] = [(m1, n)] :=
          JsMap.ofEntries_eq_self (by simp)
        rw [he]
        simp [JsMap.find]
    | some e =>
        exact JsMap.find_setAll_of_nodup_mem _ (by simp)
          (List.mem_singleton.mpr rfl)
  simp [h]

/-- Witness for the amended claim C2 at the concrete input of the spec. -/
theorem C2_save_replaces_record_witness :
    (((InMemoryRepo.empty.storeAssignment "u"
        [("m1", ⟨false, [("r1", "a")]⟩)]).storeAssignment "u"
        [("m1", ⟨false, [("r2", "b")]⟩)]).loadMaterializedAssignmentsForUnit
        "u" "m1").1 = [("m1", ⟨false, [("r2", "b")]⟩)] :=
  C2_save_replaces_record _ "u" "m1" ⟨false, [("r2", "b")]⟩ (by decide)

/-- Claim C3, counterexample: unit u holds records under both m1 and m2, yet
the load for (u, m1) contains no entry for m2, so the load does not return
every record known for the unit. -/
theorem C3_counterexample :
    findRecord (InMemoryRepo.empty.storeAssignment "u"
        [("m1", ⟨true, [("r1", "a")]⟩),
          ("m2", ⟨true, [("r2", "b")]⟩)]).storage "u" "m2"
      = some ⟨true, [("r2", "b")]⟩ ∧
    JsMap.find (((InMemoryRepo.empty.storeAssignment "u"
        [("m1", ⟨true, [("r1", "a")]⟩), ("m2", ⟨true, [("r2", "b")]⟩)]
        ).loadMaterializedAssignmentsForUnit "u" "m1").1) "m2" = none := by
  decide

/-- Claim C3, amended: loadMaterializedAssignmentsForUnit of both reference
adapters returns a singleton map holding only the requested materialization
id: the stored record when present, the default record otherwise; sibling
materialization ids stored for the unit are never included. -/
theorem C3_load_returns_requested_only (r : InMemoryRepo) (f : FileRepo)
    (u m : String) :
    (r.loadMaterializedAssignmentsForUnit u m).1
      = [(m, (findRecord r.storage u m).getD ⟨false, []⟩)] ∧
    (f.loadMaterializedAssignmentsForUnit u m).1
      = [(m, (findRecord f.file u m).getD ⟨false, []⟩)] :=
  ⟨load_fst r u m, fileLoad_fst f u m⟩

/-- Claim C4: when no record is stored for the unit and the requested id,
including units never seen at all, both reference adapters return exactly the
singleton default record keyed by the requested id; the result is never the
empty map and unknown units are not an error. -/
theorem C4_default_record (r : InMemoryRepo) (f : FileRepo) (u m : String)
    (h1 : findRecord r.storage u m = none)
    (h2 : findRecord f.file u m = none) :
    (r.loadMaterializedAssignmentsForUnit u m).1 = [(m, ⟨false, []⟩)] ∧
    (f.loadMaterializedAssignmentsForUnit u m).1 = [(m, ⟨false, []⟩)] := by
  rw [load_fst, fileLoad_fst, h1, h2]
  exact ⟨rfl, rfl⟩

/-- Witness for claim C4 at a never-seen unit. -/
theorem C4_default_record_witness :
    (InMemoryRepo.empty.loadMaterializedAssignmentsForUnit "neverSeen"
        "mX").1 = [("mX", ⟨false, []⟩)] ∧
    (FileRepo.empty.loadMaterializedAssignmentsForUnit "neverSeen"
        "mX").1 = [("mX", ⟨false, []⟩)] :=
  C4_default_record InMemoryRepo.empty FileRepo.empty "neverSeen" "mX"
    (by decide) (by decide)

theorem storage_two_stores (b1 b2 : JsMap MaterializationInfo) :
    ((InMemoryRepo.empty.storeAssignment "u1" b1).storeAssignment "u2"
      b2).storage
      = [("u1", JsMap.ofEntries b1), ("u2", JsMap.ofEntries b2)] := by
  have h1 : (InMemoryRepo.empty.storeAssignment "u1" b1).storage
      = [("u1", JsMap.ofEntries b1)] := by
    rw [storeAssignment_storage _ _ _ (by decide)]
    rfl
  rw [storeAssignment_storage _ _ _ (by decide), storeEntry, h1]
  simp [JsMap.find, JsMap.set]

theorem fbLoad_fst (fb : FileBackedRepo) (u m : String) :
    (fb.loadMaterializedAssignmentsForUnit u m).1
      = (fb.memoryRepo.loadMaterializedAssignmentsForUnit u m).1 := rfl

/-- Claim C5: for a storeAssignment with a nonempty unit, every
materialization id present in the new assignments has its stored record for
that unit replaced wholesale by the assigned value, ids of that unit absent
from the assignments keep their stored record, and every other unit is
untouched; stated for both reference adapters. -/
theorem C5_store_frame (r : InMemoryRepo) (f : FileRepo) (unit : String)
    (records : JsMap MaterializationInfo) (hu : unit ≠ "")
    (hnd : (records.map Prod.fst).Nodup) (hWF : WFStorage r.storage) :
    (∀ m v, JsMap.find records m = some v →
      findRecord (r.storeAssignment unit records).storage unit m = some v ∧
      findRecord (f.storeAssignment unit records).file unit m = some v) ∧
    (∀ m, m ∉ records.map Prod.fst →
      findRecord (r.storeAssignment unit records).storage unit m
        = findRecord r.storage unit m ∧
      findRecord (f.storeAssignment unit records).file unit m
        = findRecord f.file unit m) ∧
    (∀ u2, u2 ≠ unit →
      JsMap.find (r.storeAssignment unit records).storage u2
        = JsMap.find r.storage u2 ∧
      JsMap.find (f.storeAssignment unit records).file u2
        = JsMap.find f.file u2) := by
  refine ⟨?_, ?_, ?_⟩
  · intro m v hv
    constructor
    · rw [findRecord, find_store_self r unit records hu]
      simp only [Option.some_bind]
      rw [storeEntry]
      cases hf : JsMap.find r.storage unit with
      | none => rw [JsMap.find_ofEntries_of_nodup hnd]; exact hv
      | some e =>
          exact JsMap.find_setAll_of_nodup_mem _ hnd
            (JsMap.mem_of_find_eq_some hv)
    · rw [findRecord, fileStore_file f unit records hu, JsMap.find_set_self]
      simp only [Option.some_bind]
      exact JsMap.find_setAll_of_nodup_mem _ hnd
        (JsMap.mem_of_find_eq_some hv)
  · intro m hm
    constructor
    · rw [findRecord, find_store_self r unit records hu]
      simp only [Option.some_bind]
      rw [storeEntry]
      cases hf : JsMap.find r.storage unit with
      | none =>
          rw [JsMap.ofEntries, JsMap.find_setAll_of_not_mem _ hm,
            findRecord, hf]
          rfl
      | some e =>
          rw [JsMap.find_setAll_of_not_mem _ hm]
          have he : (e.map Prod.fst).Nodup :=
            hWF (unit, e) (JsMap.mem_of_find_eq_some hf)
          rw [JsMap.find_ofEntries_of_nodup he, findRecord, hf]
          rfl
    · rw [findRecord, fileStore_file f unit records hu, JsMap.find_set_self]
      simp only [Option.some_bind]
      rw [JsMap.find_setAll_of_not_mem _ hm]
      cases hf : JsMap.find f.file unit with
      | none => simp [findRecord, hf, JsMap.find]
      | some e => simp [findRecord, hf]
  · intro u2 h2
    refine ⟨find_store_ne r unit u2 records h2, ?_⟩
    rw [fileStore_file f unit records hu, JsMap.find_set_ne _ _ h2]

/-- Witness for claim C5 at a concrete store over a one-unit state. -/
theorem C5_store_frame_witness :
    findRecord ((InMemoryRepo.empty.storeAssignment "u"
        [("m1", ⟨true, [("r1", "a")]⟩)]).storeAssignment "u"
        [("m2", ⟨true, [("r2", "b")]⟩)]).storage "u" "m2"
      = some ⟨true, [("r2", "b")]⟩ :=
  (((C5_store_frame (InMemoryRepo.empty.storeAssignment "u"
      [("m1", ⟨true, [("r1", "a")]⟩)]) FileRepo.empty "u"
      [("m2", ⟨true, [("r2", "b")]⟩)] (by decide) (by decide)
      (by unfold WFStorage; decide)).1) "m2" ⟨true, [("r2", "b")]⟩
    (by decide)).1

/-- Claim C6: storeAssignment with the empty-string unit leaves the whole
stored state of both reference adapters unchanged. -/
theorem C6_empty_unit_is_noop (r : InMemoryRepo) (f : FileRepo)
    (a : JsMap MaterializationInfo) :
    (r.storeAssignment "" a).storage = r.storage ∧
    (f.storeAssignment "" a).file = f.file :=
  ⟨storeAssignment_empty_unit r a, fileStore_empty_unit f a⟩

/-- Claim C7, counterexample: on the write-through file-backed adapter the
second close has a further side effect on the backing file: the first close
persists the stored record and clears memory, the second overwrites the file
with the now empty state, erasing the persisted record. -/
theorem C7_counterexample :
    (((FileBackedRepo.new.storeAssignment "u"
        [("m", ⟨true, [("r", "a")]⟩)]).close ⟨some []⟩).1.close
        (((FileBackedRepo.new.storeAssignment "u"
        [("m", ⟨true, [("r", "a")]⟩)]).close ⟨some []⟩).2)).2
      ≠ ((FileBackedRepo.new.storeAssignment "u"
        [("m", ⟨true, [("r", "a")]⟩)]).close ⟨some []⟩).2 ∧
    (((FileBackedRepo.new.storeAssignment "u"
        [("m", ⟨true, [("r", "a")]⟩)]).close ⟨some []⟩).1.close
        (((FileBackedRepo.new.storeAssignment "u"
        [("m", ⟨true, [("r", "a")]⟩)]).close ⟨some []⟩).2)).2.contents
      = some [] := by
  decide

/-- Claim C7, amended: a second close is error-free and has no further
effect on the in-memory adapter, the remote fallback and the
read-on-every-call file adapter; on the write-through file-backed adapter the
in-memory state sees no further effect but the backing file is overwritten
again, with the empty state the first close left behind. -/
theorem C7_close_amended :
    (∀ r : InMemoryRepo, r.close.close = r.close) ∧
    (∀ rf : RemoteResolverFallback, rf.close.close = rf.close) ∧
    (∀ f : FileRepo, f.close.close = f.close) ∧
    (∀ (fb : FileBackedRepo) (fs1 fs2 : FileSystem),
      ((fb.close fs1).1.close fs2).1 = (fb.close fs1).1 ∧
      ((fb.close fs1).1.close fs2).2.contents = some []) :=
  ⟨fun _ => rfl, fun _ => rfl, fun _ => rfl, fun _ _ _ => ⟨rfl, rfl⟩⟩

/-- Claim C8: records saved for units u1 and u2 on a fresh write-through
file-backed adapter survive close, construction of a fresh adapter on the
same file and initialization: the loads for both units return exactly the
records that were written. -/
theorem C8_file_roundtrip (a1 a2 : JsMap MaterializationInfo)
    (fsys : FileSystem) (hnd1 : (a1.map Prod.fst).Nodup)
    (hnd2 : (a2.map Prod.fst).Nodup) :
    (∀ m v, JsMap.find a1 m = some v →
      ((FileBackedRepo.new.initRepo
          (((FileBackedRepo.new.storeAssignment "u1" a1).storeAssignment
            "u2" a2).close fsys).2).loadMaterializedAssignmentsForUnit
          "u1" m).1 = [(m, v)]) ∧
    (∀ m v, JsMap.find a2 m = some v →
      ((FileBackedRepo.new.initRepo
          (((FileBackedRepo.new.storeAssignment "u1" a1).storeAssignment
            "u2" a2).close fsys).2).loadMaterializedAssignmentsForUnit
          "u2" m).1 = [(m, v)]) := by
  have hfinal : (FileBackedRepo.new.initRepo
      (((FileBackedRepo.new.storeAssignment "u1" a1).storeAssignment
        "u2" a2).close fsys).2).memoryRepo.storage
      = [("u1", JsMap.ofEntries a1), ("u2", JsMap.ofEntries a2)] := by
    have h3 : (((FileBackedRepo.new.storeAssignment "u1" a1).storeAssignment
        "u2" a2).close fsys).2
        = FileSystem.mk (some [("u1", JsMap.ofEntries a1),
            ("u2", JsMap.ofEntries a2)]) := by
      show FileSystem.mk (some ((InMemoryRepo.empty.storeAssignment "u1"
        a1).storeAssignment "u2" a2).storage) = _
      rw [storage_two_stores]
    rw [h3]
    show ((InMemoryRepo.empty.storeAssignment "u1"
      (JsMap.ofEntries (JsMap.ofEntries a1))).storeAssignment "u2"
      (JsMap.ofEntries (JsMap.ofEntries a2))).storage = _
    rw [storage_two_stores,
      JsMap.ofEntries_eq_self (JsMap.nodup_keys_ofEntries a1),
      JsMap.ofEntries_eq_self (JsMap.nodup_keys_ofEntries a2),
      JsMap.ofEntries_eq_self (JsMap.nodup_keys_ofEntries a1),
      JsMap.ofEntries_eq_self (JsMap.nodup_keys_ofEntries a2)]
  constructor
  · intro m v hv
    rw [fbLoad_fst, load_fst, findRecord, hfinal]
    have hfind : JsMap.find [("u1", JsMap.ofEntries a1),
        ("u2", JsMap.ofEntries a2)] "u1" = some (JsMap.ofEntries a1) := by
      simp [JsMap.find]
    rw [hfind]
    simp only [Option.some_bind]
    rw [JsMap.find_ofEntries_of_nodup hnd1, hv]
    rfl
  · intro m v hv
    rw [fbLoad_fst, load_fst, findRecord, hfinal]
    have hfind : JsMap.find [("u1", JsMap.ofEntries a1),
        ("u2", JsMap.ofEntries a2)] "u2" = some (JsMap.ofEntries a2) := by
      simp [JsMap.find]
    rw [hfind]
    simp only [Option.some_bind]
    rw [JsMap.find_ofEntries_of_nodup hnd2, hv]
    rfl

/-- Witness for claim C8 at a concrete pair of saved records. -/
theorem C8_file_roundtrip_witness :
    ((FileBackedRepo.new.initRepo
        (((FileBackedRepo.new.storeAssignment "u1"
          [("m1", ⟨true, [("r1", "a")]⟩)]).storeAssignment "u2"
          [("m2", ⟨true, [("r2", "b")]⟩)]).close ⟨none⟩).2
      ).loadMaterializedAssignmentsForUnit "u1" "m1").1
      = [("m1", ⟨true, [("r1", "a")]⟩)] :=
  (C8_file_roundtrip [("m1", ⟨true, [("r1", "a")]⟩)]
    [("m2", ⟨true, [("r2", "b")]⟩)] ⟨none⟩ (by decide) (by decide)).1
    "m1" ⟨true, [("r1", "a")]⟩ (by decide)

/-- Claim C9: RemoteResolverFallback.resolve fails the whole request when
the fetch rejects or when the response status is not a success, returning no
per-flag results, and on a success status returns the decoded response
unchanged. -/
theorem C9_whole_batch (fetched : FetchResult) :
    (∀ e, fetched = Except.error e →
      RemoteResolverFallback.resolve fetched = Except.error e) ∧
    (∀ resp, fetched = Except.ok resp → resp.ok = false →
      RemoteResolverFallback.resolve fetched
        = Except.error ("Remote resolve failed: " ++ toString resp.status
            ++ " " ++ resp.statusText)) ∧
    (∀ resp, fetched = Except.ok resp → resp.ok = true →
      RemoteResolverFallback.resolve fetched = Except.ok resp.body) := by
  refine ⟨?_, ?_, ?_⟩
  · intro e he
    subst he
    rfl
  · intro resp he hok
    subst he
    simp [RemoteResolverFallback.resolve, hok]
  · intro resp he hok
    subst he
    simp [RemoteResolverFallback.resolve, hok]

/-- Witness for claim C9 at a concrete 404 response. -/
theorem C9_whole_batch_witness :
    RemoteResolverFallback.resolve (Except.ok ⟨false, 404, "Not Found",
      ⟨[], [], "resolve-123"⟩⟩)
      = Except.error "Remote resolve failed: 404 Not Found" :=
  ((C9_whole_batch (Except.ok ⟨false, 404, "Not Found",
      ⟨[], [], "resolve-123"⟩⟩)).2.1 _ rfl rfl).trans
    (congrArg Except.error (by decide))

/-- Claim C10: close of the in-memory repository erases all stored
assignments: the storage is empty afterwards, and every later load returns
only the default record for the requested id, as if no unit had ever been
stored. -/
theorem C10_close_erases (r : InMemoryRepo) (u m : String) :
    r.close.storage = [] ∧
    (r.close.loadMaterializedAssignmentsForUnit u m).1
      = [(m, ⟨false, []⟩)] := by
  refine ⟨rfl, ?_⟩
  rw [load_fst]
  simp [findRecord, InMemoryRepo.close, JsMap.find]
